import Mathlib

/-!
# Verification of `legacyproject-related-requests`

A shallow embedding of the `legacyproject-related-requests` web component
(file `src/legacyproject-related-requests.js`): an element that computes the
list of saved requests related to a legacy project and keeps that list in
sync with change/delete notifications.

The embedding models:
* request documents of the `saved-requests` store and project documents of
  the `legacy-projects` store;
* the pure helpers `_prepareData` (sort), `_setDataScope` (projection),
  `_filterRequests` (legacy substring match);
* the asynchronous `query` pipeline (`_readProjectRequests`,
  `_getProjectRequest`, `_tryLegacy`) as a function over an explicit store,
  with `Option` results standing for rejected promises;
* the component state (`projectId`, `__data`, `__querying`, `fullQuery`) and
  the event handlers `_requestObjectChanged`, `_requestObjectDeleted`,
  `_requestObjectsDeleted`, `_checkDeleted`, and `_autoQuery`.

JavaScript's in-place `Array.prototype.sort` (stable since ES2019) is
modelled by a stable insertion sort (`List.insertionSort`); `undefined`
fields are modelled by `Option`; a promise rejection is modelled by `none` /
a dedicated result constructor.
-/

namespace LegacyRelatedRequests

/-- A request document of the `saved-requests` store.  `_id` is the primary
key; every other field of the data model is optional (absent = JS
`undefined`). -/
structure RequestDoc where
  _id : String
  _rev : Option String := none
  name : Option String := none
  method : Option String := none
  url : Option String := none
  projectOrder : Option Int := none
  legacyProject : Option String := none
  projects : Option (List String) := none
deriving DecidableEq

/-- A project document of the `legacy-projects` store: it optionally carries
the ordered list of request ids it owns. -/
structure ProjectDoc where
  requests : Option (List String) := none
deriving DecidableEq

/-- The two stores the component talks to: `projects` models
`projectDb.get` (`none` = the get rejects with `not_found`), `saved` is the
content of the `saved-requests` store. -/
structure Store where
  projects : String → Option ProjectDoc
  saved : List RequestDoc

/-- `savedDb.get(id)`: the first saved document whose `_id` equals `id`,
`none` when the get would reject. -/
def savedGet (store : Store) (id : String) : Option RequestDoc :=
  store.saved.find? (fun d => d._id == id)

/-- JS `a.projectOrder > b.projectOrder`: comparison with `undefined` is
`false`. -/
def poGt : Option Int → Option Int → Bool
  | some x, some y => x > y
  | _, _ => false

/-- JS `a.projectOrder < b.projectOrder`: comparison with `undefined` is
`false`. -/
def poLt : Option Int → Option Int → Bool
  | some x, some y => x < y
  | _, _ => false

/-- Model of `String.prototype.localeCompare`: sign of the lexicographic
comparison. -/
def localeCompare (a b : String) : Int :=
  if a < b then -1 else if b < a then 1 else 0

/-- The comparator passed to `list.sort` in `_prepareData`:
`projectOrder` first (missing values never compare greater or smaller, hence
tie), then `localeCompare` on `name` with `''` for a missing name. -/
def requestCompare (a b : RequestDoc) : Int :=
  if poGt a.projectOrder b.projectOrder then 1
  else if poLt a.projectOrder b.projectOrder then -1
  else localeCompare (a.name.getD "") (b.name.getD "")

/-- `a` may be placed before `b` by the comparator (comparator value `≤ 0`). -/
def requestLe (a b : RequestDoc) : Prop := requestCompare a b ≤ 0

instance : DecidableRel requestLe := fun a b =>
  inferInstanceAs (Decidable (requestCompare a b ≤ 0))

/-- `_prepareData`: returns `[]` for an empty list, otherwise sorts by the
comparator.  `Array.prototype.sort` (stable) is modelled by the stable
`List.insertionSort`. -/
def _prepareData (list : List RequestDoc) : List RequestDoc :=
  if list.isEmpty then []
  else list.insertionSort requestLe

/-- The projection applied per item by `_setDataScope` when `fullQuery` is
unset: keep exactly `_id`, `_rev` and `name`, drop every other field. -/
def scopeItem (item : RequestDoc) : RequestDoc :=
  { _id := item._id, _rev := item._rev, name := item.name }

/-- `_setDataScope`: identity when `fullQuery` is set, otherwise the
per-item projection. -/
def _setDataScope (fullQuery : Bool) (list : List RequestDoc) : List RequestDoc :=
  if fullQuery then list else list.map scopeItem

/-- `_readProjectRequests`: `projectDb.get(id)` then `doc.requests || []`.
`none` models the rejected promise when the project document is absent. -/
def _readProjectRequests (store : Store) (id : String) : Option (List String) :=
  (store.projects id).map (fun doc => doc.requests.getD [])

/-- `_getProjectRequest`: `allDocs({include_docs: true, keys})`, keeping the
rows that carry no error and a document. -/
def _getProjectRequest (store : Store) (keys : List String) : List RequestDoc :=
  keys.filterMap (savedGet store)

/-- `item.id.indexOf(id) !== -1`: `id` occurs in `hay` as a substring. -/
def containsSubstring (hay needle : String) : Bool :=
  hay.toList.tails.any (fun t => needle.toList.isPrefixOf t)

/-- `_filterRequests`: keep the row ids that contain the project id as a
substring. -/
def _filterRequests (rows : List String) (id : String) : List String :=
  rows.filter (fun rid => containsSubstring rid id)

/-- `_tryLegacy` without the `querying` update: `allDocs()` over the saved
store, `_filterRequests`, `Promise.all` of individual gets (`none` when any
of them rejects), then `_prepareData` — which sorts the array in place —
followed by `_setDataScope` on the (sorted) array. -/
def _tryLegacy (store : Store) (fullQuery : Bool) (id : String) :
    Option (List RequestDoc) :=
  let rows := store.saved.map (fun d => d._id)
  let matched := _filterRequests rows id
  (matched.mapM (savedGet store)).map
    (fun response => _setDataScope fullQuery (_prepareData response))

/-- The component's reactive state: `projectId` (`_projectId`), the
published list (`__data`), the `__querying` flag and the `fullQuery`
property (JS `undefined` behaves as `false`, so a `Bool` with default
`false`). -/
structure CState where
  projectId : Option String := none
  data : Option (List RequestDoc) := none
  querying : Option Bool := none
  fullQuery : Bool := false
deriving DecidableEq

/-- Outcome of a `query(id)` call: `rejected` models the thrown
"argument is missing" error, `resolved items analyticsSent` a fulfilled
promise, recording whether the `send-analytics` error event was
dispatched on the way. -/
inductive QueryRes where
  | rejected
  | resolved (items : List RequestDoc) (analyticsSent : Bool)
deriving DecidableEq

/-- `query(id)`: throws when `id` is falsy; otherwise sets `querying`,
reads the project document (step 1), either bulk-fetches the listed request
ids or falls back to `_tryLegacy` (step 2), sorts and scopes the result.
Any failure inside the `try` block is caught: the `send-analytics` event is
dispatched, `querying` is cleared and the call resolves to `[]`. -/
def query (store : Store) (s : CState) (id : String) : CState × QueryRes :=
  if id = "" then (s, .rejected)
  else
    let s1 : CState := { s with querying := some true }
    match _readProjectRequests store id with
    | none => ({ s1 with querying := some false }, .resolved [] true)
    | some keys =>
      if keys.isEmpty then
        match _tryLegacy store s1.fullQuery id with
        | none => ({ s1 with querying := some false }, .resolved [] true)
        | some requests =>
          ({ s1 with querying := some false }, .resolved requests false)
      else
        let requests := _getProjectRequest store keys
        let requests := _prepareData requests
        let requests := _setDataScope s1.fullQuery requests
        ({ s1 with querying := some false }, .resolved requests false)

/-- `_autoQuery(projectId)`: no-op on a falsy id, otherwise awaits
`query(projectId)` and assigns the result to `_data`.  When the awaited
query throws, `_data` is not assigned. -/
def _autoQuery (store : Store) (s : CState) (projectId : Option String) : CState :=
  match projectId with
  | none => s
  | some pid =>
    if pid = "" then s
    else
      match query store s pid with
      | (s', .rejected) => s'
      | (s', .resolved items _) => { s' with data := some items }

/-- The `projects` array built at the top of `_requestObjectChanged`:
`[request.legacyProject]` when that field is truthy, concatenated with
`request.projects` when present. -/
def changedProjects (request : RequestDoc) : List String :=
  (match request.legacyProject with
   | some lp => if lp = "" then [] else [lp]
   | none => []) ++ request.projects.getD []

/-- The find/replace-or-append step of `_requestObjectChanged`: look up an
existing entry by the record's own `_id`, replace it when found, push the
record otherwise. -/
def upsertByOwnId (items : List RequestDoc) (request : RequestDoc) :
    List RequestDoc :=
  match items.findIdx? (fun item => item._id == request._id) with
  | some index => items.set index request
  | none => items ++ [request]

/-- Handler for `request-object-changed`: ignored when cancelable
(provisional) or when the current `projectId` is not among the record's
project associations; when the current list is absent or empty the list
becomes `[request]`; otherwise the record is upserted by its own `_id` and
the list re-sorted by `_prepareData`. -/
def _requestObjectChanged (s : CState) (cancelable : Bool)
    (request : RequestDoc) : CState :=
  if cancelable then s
  else
    match s.projectId with
    | none => s
    | some pid =>
      if pid ∈ changedProjects request then
        if (s.data.getD []).isEmpty then { s with data := some [request] }
        else
          { s with data := some (_prepareData
              (upsertByOwnId (s.data.getD []) request)) }
      else s

/-- The splice loop of `_checkDeleted`, walking the array from its last
index down: drops every item whose `_id` is among `ids`, and reports in the
second component whether anything was removed (the `changed` flag). -/
def removeMatching (ids : List String) :
    List RequestDoc → List RequestDoc × Bool
  | [] => ([], false)
  | item :: rest =>
    let (kept, changed) := removeMatching ids rest
    if ids.contains item._id then (kept, true)
    else (item :: kept, changed)

/-- `_checkDeleted(ids)`: no-op when no (or an empty) list is present;
otherwise runs the splice loop and re-publishes the list only when the
`changed` flag was set. -/
def _checkDeleted (s : CState) (ids : List String) : CState :=
  match s.data with
  | none => s
  | some items =>
    if items.isEmpty then s
    else
      let (remaining, changed) := removeMatching ids items
      if changed then { s with data := some remaining } else s

/-- Handler for `request-object-deleted`: ignored when cancelable or when
the id is falsy, otherwise `_checkDeleted([id])`. -/
def _requestObjectDeleted (s : CState) (cancelable : Bool)
    (id : Option String) : CState :=
  if cancelable then s
  else
    match id with
    | none => s
    | some i => if i = "" then s else _checkDeleted s [i]

/-- Handler for `request-objects-deleted`: ignored when cancelable or when
the id list is absent or empty, otherwise `_checkDeleted(ids)`. -/
def _requestObjectsDeleted (s : CState) (cancelable : Bool)
    (ids : Option (List String)) : CState :=
  if cancelable then s
  else
    match ids with
    | none => s
    | some l => if l.isEmpty then s else _checkDeleted s l

/-! ## Definitions used to state the claims -/

/-- The ordering the specification describes for `_prepareData`: ascending
by `projectOrder`, a missing (or equal) `projectOrder` treated as a tie, and
a tie broken by ascending comparison of `name`, substituting `""` when the
name is absent.  Written from the specification's words, to be compared with
the source comparator `requestCompare`. -/
def specOrderedLe (a b : RequestDoc) : Prop :=
  match a.projectOrder, b.projectOrder with
  | some x, some y => x < y ∨ (x = y ∧ a.name.getD "" ≤ b.name.getD "")
  | _, _ => a.name.getD "" ≤ b.name.getD ""

/-- Recursive restatement of `findIndex`/replace/push: replace the first
entry with the record's `_id`, append when none matches. -/
def upsertRec : List RequestDoc → RequestDoc → List RequestDoc
  | [], request => [request]
  | item :: rest, request =>
    if item._id == request._id then request :: rest
    else item :: upsertRec rest request

/-- The published list carries no two entries with the same identifier. -/
def dataIdsNodup : Option (List RequestDoc) → Prop
  | none => True
  | some l => (l.map (fun r => r._id)).Nodup

/-- The store returns duplicate-free results: the saved store is keyed
(no two documents share an `_id`) and no project document lists a request
id twice. -/
def storeDupFree (store : Store) : Prop :=
  (store.saved.map (fun d => d._id)).Nodup ∧
  ∀ id pdoc, store.projects id = some pdoc → (pdoc.requests.getD []).Nodup

/-! ## Concrete documents and stores used in witnesses and counterexamples -/

/-- "Alpha", `projectOrder = 1` (specification scenario 7). -/
def alphaDoc : RequestDoc :=
  { _id := "r2", _rev := some "2-a", name := some "Alpha",
    method := some "GET", projectOrder := some 1 }

/-- "Beta", `projectOrder = 2` (specification scenario 7). -/
def betaDoc : RequestDoc :=
  { _id := "r1", _rev := some "1-b", name := some "Beta",
    method := some "POST", projectOrder := some 2 }

/-- A store whose project `P1` lists `[r1, r2]` (Beta before Alpha). -/
def storeP1 : Store :=
  { projects := fun pid =>
      if pid = "P1" then some { requests := some ["r1", "r2"] } else none
    saved := [betaDoc, alphaDoc] }

/-- A request stored under the legacy composite path `"p/r1"`. -/
def legacyPathDoc : RequestDoc :=
  { _id := "p/r1", _rev := some "1-x", name := some "Legacy" }

/-- A store with no project documents at all but one request under the
legacy composite path for project `p`. -/
def storeNoProject : Store :=
  { projects := fun _ => none
    saved := [legacyPathDoc] }

/-- A store whose project document `p` exists but carries no `requests`
list, with one request under the legacy composite path. -/
def storeLegacyOnly : Store :=
  { projects := fun pid => if pid = "p" then some {} else none
    saved := [legacyPathDoc] }

/-- A request with identifier `"a"`, associated with project `p`. -/
def oldEntryDoc : RequestDoc :=
  { _id := "a", _rev := some "1-a", name := some "A", projectOrder := some 1,
    legacyProject := some "p" }

/-- The same logical request after its identifier changed to `"b"`. -/
def renamedDoc : RequestDoc :=
  { _id := "b", _rev := some "2-b", name := some "B", projectOrder := some 2,
    legacyProject := some "p" }

/-- A component state viewing project `p` whose list holds `oldEntryDoc`. -/
def projectPState : CState :=
  { projectId := some "p", data := some [oldEntryDoc] }


/-! ## Properties of the comparator -/

theorem poGt_eq_poLt (x y : Option Int) : poGt x y = poLt y x := by
  cases x <;> cases y <;> simp [poGt, poLt]

theorem poGt_asymm (x y : Option Int) (h : poGt x y = true) : poGt y x = false := by
  cases x <;> cases y <;> simp_all [poGt]
  omega

theorem localeCompare_le_total (a b : String) :
    localeCompare a b ≤ 0 ∨ localeCompare b a ≤ 0 := by
  unfold localeCompare
  rcases lt_trichotomy a b with h | h | h
  · left; rw [if_pos h]; norm_num
  · right; subst h; rw [if_neg (lt_irrefl a), if_neg (lt_irrefl a)]
  · right; rw [if_pos h]; norm_num

theorem requestLe_total (a b : RequestDoc) : requestLe a b ∨ requestLe b a := by
  unfold requestLe requestCompare
  by_cases hg : poGt a.projectOrder b.projectOrder = true
  · have hl : poLt b.projectOrder a.projectOrder = true :=
      (poGt_eq_poLt _ _).symm.trans hg
    have hg2 : poGt b.projectOrder a.projectOrder = false := poGt_asymm _ _ hg
    right
    simp [hg2, hl]
  · by_cases hp : poLt a.projectOrder b.projectOrder = true
    · left
      have hg' : poGt a.projectOrder b.projectOrder = false := by simpa using hg
      simp [hg', hp]
    · have hg' : poGt a.projectOrder b.projectOrder = false := by simpa using hg
      have hp' : poLt a.projectOrder b.projectOrder = false := by simpa using hp
      have h1 : poGt b.projectOrder a.projectOrder = false :=
        (poGt_eq_poLt _ _).trans hp'
      have h2 : poLt b.projectOrder a.projectOrder = false :=
        (poGt_eq_poLt _ _).symm.trans hg'
      simpa [hg', hp', h1, h2] using
        localeCompare_le_total (a.name.getD "") (b.name.getD "")

/-! ## Properties of the stable sort -/

theorem chain'_orderedInsert {a : RequestDoc} {l : List RequestDoc}
    (h : l.Chain' requestLe) :
    (List.orderedInsert requestLe a l).Chain' requestLe := by
  induction l with
  | nil => simp [List.orderedInsert]
  | cons b t ih =>
    rw [List.orderedInsert]
    by_cases hab : requestLe a b
    · rw [if_pos hab]
      exact List.chain'_cons.mpr ⟨hab, h⟩
    · rw [if_neg hab]
      have hba : requestLe b a := (requestLe_total a b).resolve_left hab
      have hrec := ih h.tail
      refine List.chain'_cons'.mpr ⟨?_, hrec⟩
      intro y hy
      cases t with
      | nil =>
        simp [List.orderedInsert] at hy
        exact hy ▸ hba
      | cons c t' =>
        rw [List.orderedInsert] at hy
        by_cases hac : requestLe a c
        · rw [if_pos hac] at hy
          simp at hy
          exact hy ▸ hba
        · rw [if_neg hac] at hy
          simp at hy
          exact hy ▸ (List.chain'_cons.mp h).1

theorem chain'_insertionSort (l : List RequestDoc) :
    (l.insertionSort requestLe).Chain' requestLe := by
  induction l with
  | nil => simp [List.insertionSort]
  | cons a t ih =>
    rw [List.insertionSort]
    exact chain'_orderedInsert ih

theorem insertionSort_eq_of_chain' :
    ∀ {l : List RequestDoc}, l.Chain' requestLe → l.insertionSort requestLe = l
  | [], _ => rfl
  | a :: t, h => by
    have ht : t.insertionSort requestLe = t := insertionSort_eq_of_chain' h.tail
    rw [List.insertionSort, ht]
    cases t with
    | nil => rfl
    | cons b t' =>
      rw [List.orderedInsert, if_pos (List.chain'_cons.mp h).1]

theorem filter_orderedInsert (P : RequestDoc → Bool)
    (hP : ∀ x y, P x = true → P y = true → requestLe x y) (a : RequestDoc) :
    ∀ l : List RequestDoc,
      (List.orderedInsert requestLe a l).filter P =
        if P a then a :: l.filter P else l.filter P
  | [] => by simp [List.orderedInsert, List.filter_cons]
  | b :: t => by
    rw [List.orderedInsert]
    by_cases hab : requestLe a b
    · rw [if_pos hab, List.filter_cons]
    · rw [if_neg hab]
      by_cases ha : P a = true
      · have hb : P b = false := by
          rcases Bool.eq_false_or_eq_true (P b) with h | h
          · exact absurd (hP a b ha h) hab
          · exact h
        simp [List.filter_cons, hb, ha, filter_orderedInsert P hP a t]
      · have ha' : P a = false := by simpa using ha
        simp [List.filter_cons, ha', filter_orderedInsert P hP a t]

theorem filter_insertionSort (P : RequestDoc → Bool)
    (hP : ∀ x y, P x = true → P y = true → requestLe x y) :
    ∀ l : List RequestDoc, (l.insertionSort requestLe).filter P = l.filter P
  | [] => rfl
  | a :: t => by
    rw [List.insertionSort]
    simp [filter_orderedInsert P hP a, filter_insertionSort P hP t,
      List.filter_cons]

/-! ## Properties of `_prepareData` -/

theorem _prepareData_perm (l : List RequestDoc) : (_prepareData l).Perm l := by
  unfold _prepareData
  by_cases h : l.isEmpty
  · rw [if_pos h, List.isEmpty_iff] at *
    rw [h]
  · rw [if_neg h]
    exact List.perm_insertionSort requestLe l

theorem _prepareData_chain' (l : List RequestDoc) :
    (_prepareData l).Chain' requestLe := by
  unfold _prepareData
  by_cases h : l.isEmpty
  · simp [h]
  · rw [if_neg h]
    exact chain'_insertionSort l

theorem _prepareData_idem (l : List RequestDoc) :
    _prepareData (_prepareData l) = _prepareData l := by
  unfold _prepareData
  by_cases h : l.isEmpty
  · simp [h]
  · rw [if_neg h]
    by_cases h2 : (l.insertionSort requestLe).isEmpty
    · exfalso
      rw [List.isEmpty_iff] at h2
      have := List.length_insertionSort requestLe l
      rw [h2] at this
      have hl : l = [] := List.eq_nil_of_length_eq_zero this.symm
      rw [List.isEmpty_iff] at h
      exact h hl
    · rw [if_neg h2]
      exact insertionSort_eq_of_chain' (chain'_insertionSort l)

theorem _prepareData_filter_key (l : List RequestDoc) (P : RequestDoc → Bool)
    (hP : ∀ x y, P x = true → P y = true → requestLe x y) :
    (_prepareData l).filter P = l.filter P := by
  unfold _prepareData
  by_cases h : l.isEmpty
  · rw [if_pos h, List.isEmpty_iff] at *
    rw [h]
  · rw [if_neg h]
    exact filter_insertionSort P hP l

/-! ## Properties of the store accessors and of `_checkDeleted`'s loop -/

theorem savedGet_id (store : Store) (k : String) (d : RequestDoc)
    (h : savedGet store k = some d) : d._id = k := by
  unfold savedGet at h
  simpa using List.find?_some h

theorem savedGet_isSome_of_mem (store : Store) (d : RequestDoc)
    (h : d ∈ store.saved) : (savedGet store d._id).isSome := by
  unfold savedGet
  rw [List.find?_isSome]
  exact ⟨d, h, by simp⟩

theorem mapM_option_eq_filterMap {α β : Type} (f : α → Option β) :
    ∀ (l : List α) (r : List β), l.mapM f = some r → r = l.filterMap f := by
  intro l
  induction l with
  | nil =>
    intro r h
    simp only [List.mapM_nil] at h
    cases h
    rfl
  | cons a t ih =>
    intro r h
    rw [List.mapM_cons] at h
    cases hfa : f a with
    | none => rw [hfa] at h; simp at h
    | some b =>
      rw [hfa] at h
      cases hmt : t.mapM f with
      | none => rw [hmt] at h; simp at h
      | some bs =>
        rw [hmt] at h
        simp at h
        rw [List.filterMap_cons, hfa, ← h, ih bs hmt]

theorem mapM_option_isSome {α β : Type} (f : α → Option β) :
    ∀ l : List α, (∀ a ∈ l, (f a).isSome) → ∃ r, l.mapM f = some r := by
  intro l
  induction l with
  | nil => intro _; exact ⟨[], rfl⟩
  | cons a t ih =>
    intro h
    obtain ⟨b, hb⟩ := Option.isSome_iff_exists.mp (h a (List.mem_cons_self a t))
    obtain ⟨bs, hbs⟩ := ih (fun x hx => h x (List.mem_cons_of_mem a hx))
    exact ⟨b :: bs, by rw [List.mapM_cons, hb, hbs]; rfl⟩

theorem map_id_filterMap_savedGet (store : Store) :
    ∀ keys : List String,
      ((keys.filterMap (savedGet store)).map (fun d => d._id)) =
        keys.filter (fun k => (savedGet store k).isSome)
  | [] => rfl
  | k :: t => by
    rw [List.filterMap_cons]
    cases h : savedGet store k with
    | none =>
      simp only [List.filter_cons, h, Option.isSome_none, Bool.false_eq_true,
        if_false, cond_false]
      exact map_id_filterMap_savedGet store t
    | some d =>
      have hid : d._id = k := savedGet_id store k d h
      simp only [List.map_cons, List.filter_cons, h, Option.isSome_some,
        cond_true, if_true, hid]
      rw [map_id_filterMap_savedGet store t]

theorem scope_map_id (fullQuery : Bool) (l : List RequestDoc) :
    ((_setDataScope fullQuery l).map (fun d => d._id)) = l.map (fun d => d._id) := by
  unfold _setDataScope
  cases fullQuery with
  | false => simp [scopeItem, List.map_map, Function.comp]
  | true => simp

theorem removeMatching_eq (ids : List String) :
    ∀ items : List RequestDoc,
      removeMatching ids items =
        (items.filter (fun it => !(ids.contains it._id)),
         items.any (fun it => ids.contains it._id))
  | [] => rfl
  | item :: rest => by
    rw [removeMatching, removeMatching_eq ids rest]
    by_cases h : item._id ∈ ids
    · simp [h, List.filter_cons, List.any_cons]
    · simp [h, List.filter_cons, List.any_cons]

/-! ## Properties of the changed-handler upsert -/

theorem upsertByOwnId_eq_rec :
    ∀ (items : List RequestDoc) (r : RequestDoc),
      upsertByOwnId items r = upsertRec items r
  | [], r => rfl
  | item :: rest, r => by
    have ih := upsertByOwnId_eq_rec rest r
    unfold upsertByOwnId upsertRec
    by_cases h : item._id == r._id
    · simp [List.findIdx?_cons, h]
    · have h' : (item._id == r._id) = false := by simpa using h
      rw [List.findIdx?_cons]
      simp only [h', cond_false, Bool.false_eq_true, if_false,
        List.findIdx?_succ]
      cases hidx : rest.findIdx? (fun it => it._id == r._id) with
      | none =>
        have hrw : upsertByOwnId rest r = rest ++ [r] := by
          unfold upsertByOwnId
          rw [hidx]
        simp only [Option.map_none']
        show (item :: rest) ++ [r] = item :: upsertRec rest r
        rw [List.cons_append, ← hrw, ih]
      | some j =>
        have hrw : upsertByOwnId rest r = rest.set j r := by
          unfold upsertByOwnId
          rw [hidx]
        simp only [Option.map_some']
        show (item :: rest).set (j + 1) r = item :: upsertRec rest r
        rw [List.set_cons_succ, ← hrw, ih]

theorem upsertRec_map_id (r : RequestDoc) :
    ∀ items : List RequestDoc,
      (upsertRec items r).map (fun d => d._id) =
        if items.any (fun it => it._id == r._id) then
          items.map (fun d => d._id)
        else items.map (fun d => d._id) ++ [r._id]
  | [] => by simp [upsertRec]
  | item :: rest => by
    unfold upsertRec
    by_cases h : item._id == r._id
    · have hid : item._id = r._id := by simpa using h
      simp [List.any_cons, h, hid]
    · have h' : (item._id == r._id) = false := by simpa using h
      simp only [h', Bool.false_eq_true, if_false, List.any_cons,
        Bool.false_or, List.map_cons]
      rw [upsertRec_map_id r rest]
      by_cases hrest : (rest.any fun it => it._id == r._id) = true
      · rw [if_pos hrest, if_pos hrest]
      · rw [if_neg hrest, if_neg hrest, List.cons_append]

/-! ## The comparator matches the specified ordering -/

theorem localeCompare_nonpos_iff (a b : String) : localeCompare a b ≤ 0 ↔ a ≤ b := by
  unfold localeCompare
  rcases lt_trichotomy a b with h | h | h
  · rw [if_pos h]
    constructor
    · intro _
      exact le_of_lt h
    · intro _
      decide
  · subst h
    rw [if_neg (lt_irrefl a), if_neg (lt_irrefl a)]
    simp
  · rw [if_neg (asymm h), if_pos h]
    constructor
    · intro hc
      exact absurd hc (by decide)
    · intro hc
      exact absurd hc (not_le.mpr h)

theorem requestLe_iff_specOrderedLe (a b : RequestDoc) :
    requestLe a b ↔ specOrderedLe a b := by
  unfold requestLe requestCompare specOrderedLe
  cases hpa : a.projectOrder with
  | none =>
    cases hpb : b.projectOrder with
    | none => simp [poGt, poLt, localeCompare_nonpos_iff]
    | some y => simp [poGt, poLt, localeCompare_nonpos_iff]
  | some x =>
    cases hpb : b.projectOrder with
    | none => simp [poGt, poLt, localeCompare_nonpos_iff]
    | some y =>
      simp only [poGt, poLt]
      rcases lt_trichotomy x y with h | h | h
      · have h1 : ¬x > y := asymm h
        simp [h, h1]
      · subst h
        simp [lt_irrefl, localeCompare_nonpos_iff]
      · have h1 : ¬x < y := asymm h
        have h2 : x ≠ y := (ne_of_lt h).symm
        simp [h, h1, h2]

/-! ## Characterization of the `query` paths -/

theorem query_resolves (store : Store) (s : CState) (id : String)
    (hid : id ≠ "") :
    ∃ items analyticsSent,
      query store s id = ({ s with querying := some false },
        QueryRes.resolved items analyticsSent) := by
  unfold query
  rw [if_neg hid]
  cases _readProjectRequests store id with
  | none => exact ⟨[], true, rfl⟩
  | some keys =>
    by_cases hk : keys.isEmpty
    · simp only [hk, if_true]
      cases _tryLegacy store ({ s with querying := some true } : CState).fullQuery id with
      | none => exact ⟨[], true, rfl⟩
      | some requests => exact ⟨requests, false, rfl⟩
    · simp only [hk, if_false]
      exact ⟨_, false, rfl⟩

theorem query_missing_project (store : Store) (s : CState) (id : String)
    (hid : id ≠ "") (hnone : store.projects id = none) :
    query store s id =
      ({ s with querying := some false }, QueryRes.resolved [] true) := by
  have hr : _readProjectRequests store id = none := by
    unfold _readProjectRequests
    rw [hnone]
    rfl
  unfold query
  rw [if_neg hid, hr]

theorem query_fallback (store : Store) (s : CState) (id : String)
    (hid : id ≠ "") (pdoc : ProjectDoc)
    (hget : store.projects id = some pdoc)
    (hreqs : pdoc.requests.getD [] = [])
    (items : List RequestDoc)
    (htl : _tryLegacy store s.fullQuery id = some items) :
    query store s id =
      ({ s with querying := some false }, QueryRes.resolved items false) := by
  have hr : _readProjectRequests store id = some [] := by
    unfold _readProjectRequests
    rw [hget, Option.map_some', hreqs]
  unfold query
  rw [if_neg hid, hr]
  simp only [List.isEmpty_nil, if_true]
  rw [htl]

theorem query_fallback_none (store : Store) (s : CState) (id : String)
    (hid : id ≠ "") (pdoc : ProjectDoc)
    (hget : store.projects id = some pdoc)
    (hreqs : pdoc.requests.getD [] = [])
    (htl : _tryLegacy store s.fullQuery id = none) :
    query store s id =
      ({ s with querying := some false }, QueryRes.resolved [] true) := by
  have hr : _readProjectRequests store id = some [] := by
    unfold _readProjectRequests
    rw [hget, Option.map_some', hreqs]
  unfold query
  rw [if_neg hid, hr]
  simp only [List.isEmpty_nil, if_true]
  rw [htl]

theorem query_main (store : Store) (s : CState) (id : String)
    (hid : id ≠ "") (pdoc : ProjectDoc) (R : List String)
    (hget : store.projects id = some pdoc)
    (hreq : pdoc.requests = some R) (hne : R ≠ []) :
    query store s id =
      ({ s with querying := some false },
        QueryRes.resolved
          (_setDataScope s.fullQuery
            (_prepareData (R.filterMap (savedGet store)))) false) := by
  have hr : _readProjectRequests store id = some R := by
    unfold _readProjectRequests
    rw [hget, Option.map_some', hreq]
    rfl
  have hke : R.isEmpty = false := by
    cases R with
    | nil => exact absurd rfl hne
    | cons a t => rfl
  unfold query
  rw [if_neg hid, hr]
  simp only [hke, Bool.false_eq_true, if_false]
  rfl

theorem tryLegacy_some (store : Store) (fq : Bool) (id : String) :
    ∃ items,
      _tryLegacy store fq id = some items ∧
      items = _setDataScope fq (_prepareData
        (((store.saved.map (fun d => d._id)).filter
          (fun rid => containsSubstring rid id)).filterMap (savedGet store))) := by
  have hall : ∀ k ∈ (store.saved.map (fun d => d._id)).filter
      (fun rid => containsSubstring rid id), (savedGet store k).isSome := by
    intro k hk
    have hk2 : k ∈ store.saved.map (fun d => d._id) :=
      List.mem_of_mem_filter hk
    obtain ⟨d, hd, rfl⟩ := List.mem_map.mp hk2
    exact savedGet_isSome_of_mem store d hd
  obtain ⟨resp, hresp⟩ := mapM_option_isSome (savedGet store) _ hall
  have hre : resp = ((store.saved.map (fun d => d._id)).filter
      (fun rid => containsSubstring rid id)).filterMap (savedGet store) :=
    mapM_option_eq_filterMap (savedGet store) _ resp hresp
  refine ⟨_setDataScope fq (_prepareData resp), ?_, by rw [hre]⟩
  unfold _tryLegacy _filterRequests
  simp only [hresp, Option.map_some']

theorem query_items_cases (store : Store) (s : CState) (id : String)
    (items : List RequestDoc) (a : Bool)
    (h : (query store s id).2 = QueryRes.resolved items a) :
    items = [] ∨
    (∃ pdoc, store.projects id = some pdoc ∧
      items = _setDataScope s.fullQuery (_prepareData
        ((pdoc.requests.getD []).filterMap (savedGet store)))) ∨
    items = _setDataScope s.fullQuery (_prepareData
      (((store.saved.map (fun d => d._id)).filter
        (fun rid => containsSubstring rid id)).filterMap (savedGet store))) := by
  by_cases hid : id = ""
  · subst hid
    simp [query] at h
  · cases hget : store.projects id with
    | none =>
      rw [query_missing_project store s id hid hget] at h
      cases h
      exact Or.inl rfl
    | some pdoc =>
      by_cases hreqs : pdoc.requests.getD [] = []
      · obtain ⟨its, htl, hits⟩ := tryLegacy_some store s.fullQuery id
        rw [query_fallback store s id hid pdoc hget hreqs its htl] at h
        cases h
        exact Or.inr (Or.inr hits)
      · have hreq : ∃ R, pdoc.requests = some R ∧ R ≠ [] := by
          cases hpr : pdoc.requests with
          | none => exact absurd (by rw [hpr]; rfl) hreqs
          | some R =>
            refine ⟨R, rfl, ?_⟩
            intro hR
            exact hreqs (by rw [hpr, hR]; rfl)
        obtain ⟨R, hpr, hne⟩ := hreq
        rw [query_main store s id hid pdoc R hget hpr hne] at h
        cases h
        refine Or.inr (Or.inl ⟨pdoc, rfl, ?_⟩)
        rw [hpr]
        rfl

/-! ## Duplicate-freedom helpers -/

theorem scoped_prepared_nodup (store : Store) (fq : Bool) (keys : List String)
    (hk : keys.Nodup) :
    ((_setDataScope fq (_prepareData (keys.filterMap (savedGet store)))).map
      (fun r => r._id)).Nodup := by
  rw [scope_map_id]
  have hperm : ((_prepareData (keys.filterMap (savedGet store))).map
      (fun r => r._id)).Perm
      ((keys.filterMap (savedGet store)).map (fun r => r._id)) :=
    (_prepareData_perm _).map _
  rw [map_id_filterMap_savedGet] at hperm
  exact hperm.nodup_iff.mpr (hk.filter _)

theorem mem_upsertRec (r : RequestDoc) : ∀ items : List RequestDoc, r ∈ upsertRec items r
  | [] => by simp [upsertRec]
  | item :: rest => by
    unfold upsertRec
    by_cases h : item._id == r._id
    · simp [h]
    · simp [h, mem_upsertRec r rest]

/-! ## Claims -/

/-- C4: the sort applied to every freshly computed or merged list
(`_prepareData`) returns a permutation of its input that is ordered
ascending by `projectOrder` — a missing or equal `projectOrder` being a tie —
with ties broken by ascending comparison of `name` (empty string when the
name is absent): consecutive entries always satisfy `specOrderedLe`.
Consequently, for project `P1` with requests named "Beta"
(`projectOrder = 2`) and "Alpha" (`projectOrder = 1`), `query` returns
`[Alpha, Beta]` (projected, since `fullQuery` is unset). -/
theorem C4_sort_order :
    (∀ l : List RequestDoc,
      (_prepareData l).Perm l ∧ (_prepareData l).Chain' specOrderedLe) ∧
    query storeP1 {} "P1" =
      ({ querying := some false },
        QueryRes.resolved [scopeItem alphaDoc, scopeItem betaDoc] false) := by
  constructor
  · intro l
    refine ⟨_prepareData_perm l, ?_⟩
    exact (_prepareData_chain' l).imp
      (fun a b => (requestLe_iff_specOrderedLe a b).mp)
  · decide

/-- C8: the ordering step `_prepareData` is idempotent — sorting an
already-sorted list returns the same list — and it is stable under equal
`(projectOrder, name)` keys: for any key value, the entries carrying that
exact key appear in the output in their input order (the filter by the key
is unchanged). -/
theorem C8_sort_idempotent_stable :
    (∀ l : List RequestDoc, _prepareData (_prepareData l) = _prepareData l) ∧
    (∀ (l : List RequestDoc) (po : Option Int) (nm : Option String),
      (_prepareData l).filter
          (fun r => r.projectOrder == po && r.name == nm) =
        l.filter (fun r => r.projectOrder == po && r.name == nm)) := by
  constructor
  · exact _prepareData_idem
  · intro l po nm
    apply _prepareData_filter_key
    intro x y hx hy
    have hx1 : x.projectOrder = po ∧ x.name = nm := by simpa using hx
    have hy1 : y.projectOrder = po ∧ y.name = nm := by simpa using hy
    unfold requestLe requestCompare
    rw [hx1.1, hy1.1, hx1.2, hy1.2]
    have h1 : poGt po po = false := by
      cases po with
      | none => rfl
      | some x => simp [poGt]
    have h2 : poLt po po = false := by
      cases po with
      | none => rfl
      | some x => simp [poLt]
    simp [h1, h2, localeCompare, lt_irrefl]

/-- C1: for a project id `P` whose document exists and lists a non-empty
`requests` id list `R`, `query(P)` resolves — with no analytics error and
`querying` cleared — to exactly the subset of `R` that resolves in the
store (unresolvable ids silently dropped via `filterMap`), each record
reduced per `fullQuery`: the whole document when set, exactly
`{_id, _rev, name}` (every other field absent) when unset. -/
theorem C1_query_resolving_subset (store : Store) (s : CState) (P : String)
    (pdoc : ProjectDoc) (R : List String)
    (hP : P ≠ "")
    (hget : store.projects P = some pdoc)
    (hreq : pdoc.requests = some R)
    (hne : R ≠ []) :
    ∃ items,
      query store s P = ({ s with querying := some false },
        QueryRes.resolved items false) ∧
      items.Perm ((R.filterMap (savedGet store)).map
        (fun d => if s.fullQuery then d else scopeItem d)) ∧
      (s.fullQuery = false → ∀ it ∈ items,
        it.method = none ∧ it.url = none ∧ it.projectOrder = none ∧
        it.legacyProject = none ∧ it.projects = none) := by
  refine ⟨_, query_main store s P hP pdoc R hget hreq hne, ?_, ?_⟩
  · cases hfq : s.fullQuery with
    | true =>
      simp only [_setDataScope, if_true, List.map_id']
      exact _prepareData_perm _
    | false =>
      simp only [_setDataScope, Bool.false_eq_true, if_false]
      exact (_prepareData_perm (R.filterMap (savedGet store))).map scopeItem
  · intro hfq it hit
    rw [hfq] at hit
    simp only [_setDataScope, Bool.false_eq_true, if_false] at hit
    obtain ⟨d, _, rfl⟩ := List.mem_map.mp hit
    exact ⟨rfl, rfl, rfl, rfl, rfl⟩

/-- Witness for C1: at `storeP1`, project `P1` lists `[r1, r2]`, both
resolve, and the query returns their projections. -/
theorem C1_witness :
    ∃ items,
      query storeP1 {} "P1" = ({ ({} : CState) with querying := some false },
        QueryRes.resolved items false) ∧
      items.Perm ((["r1", "r2"].filterMap (savedGet storeP1)).map
        (fun d => if ({} : CState).fullQuery then d else scopeItem d)) ∧
      (({} : CState).fullQuery = false → ∀ it ∈ items,
        it.method = none ∧ it.url = none ∧ it.projectOrder = none ∧
        it.legacyProject = none ∧ it.projects = none) :=
  C1_query_resolving_subset storeP1 {} "P1" { requests := some ["r1", "r2"] }
    ["r1", "r2"] (by decide) (by decide) rfl (by decide)

/-- C2 counterexample: with no project document for `p` but a saved request
stored under the legacy composite path `"p/r1"`, the claim predicts the
fallback path returns that substring-matching request; the code instead
catches the rejected `projectDb.get`, reports it through `send-analytics`
and resolves to `[]` — even though the fallback, had it run, would have
returned the request. -/
theorem C2_counterexample :
    (query storeNoProject {} "p").2 = QueryRes.resolved [] true ∧
    _tryLegacy storeNoProject false "p" = some [scopeItem legacyPathDoc] ∧
    QueryRes.resolved [] true ≠
      QueryRes.resolved [scopeItem legacyPathDoc] false := by
  refine ⟨by decide, by decide, by decide⟩

/-- C2 amended: the legacy fallback path (scan all request documents, keep
those whose identifier contains the project id as a substring, fetch each
individually) is used precisely when the project document EXISTS but lists
no requests (`requests` absent or empty); when the project document is
absent, the rejected get is treated as a failure: the error side-channel
fires and the call resolves to the empty list. -/
theorem C2_fallback_condition (store : Store) (s : CState) (id : String)
    (hid : id ≠ "") :
    (store.projects id = none →
      query store s id = ({ s with querying := some false },
        QueryRes.resolved [] true)) ∧
    (∀ pdoc, store.projects id = some pdoc → pdoc.requests.getD [] = [] →
      ∃ items,
        query store s id = ({ s with querying := some false },
          QueryRes.resolved items false) ∧
        items.Perm ((((store.saved.map (fun d => d._id)).filter
            (fun rid => containsSubstring rid id)).filterMap
            (savedGet store)).map
          (fun d => if s.fullQuery then d else scopeItem d))) := by
  constructor
  · intro hnone
    exact query_missing_project store s id hid hnone
  · intro pdoc hget hreqs
    obtain ⟨items, htl, hits⟩ := tryLegacy_some store s.fullQuery id
    refine ⟨items, query_fallback store s id hid pdoc hget hreqs items htl, ?_⟩
    rw [hits]
    cases hfq : s.fullQuery with
    | true =>
      simp only [_setDataScope, if_true, List.map_id']
      exact _prepareData_perm _
    | false =>
      simp only [_setDataScope, Bool.false_eq_true, if_false]
      exact (_prepareData_perm _).map scopeItem

/-- Witness for C2 (amended): project `p` exists with no `requests` list;
the fallback returns the request stored under `"p/r1"`. -/
theorem C2_witness :
    (storeLegacyOnly.projects "p" = none →
      query storeLegacyOnly {} "p" = ({ ({} : CState) with querying := some false },
        QueryRes.resolved [] true)) ∧
    (∀ pdoc, storeLegacyOnly.projects "p" = some pdoc →
      pdoc.requests.getD [] = [] →
      ∃ items,
        query storeLegacyOnly {} "p" = ({ ({} : CState) with querying := some false },
          QueryRes.resolved items false) ∧
        items.Perm ((((storeLegacyOnly.saved.map (fun d => d._id)).filter
            (fun rid => containsSubstring rid "p")).filterMap
            (savedGet storeLegacyOnly)).map
          (fun d => if ({} : CState).fullQuery then d else scopeItem d))) :=
  C2_fallback_condition storeLegacyOnly {} "p" (by decide)

/-- C3: `query(id)` rejects exactly when `id` is empty; for any non-empty
id the call always resolves with `querying` finally `false` — no exception
escapes the `try` block — and each modelled step-1/step-2 failure (a
missing project document; a failing get inside the fallback) is reported
via `send-analytics` and resolves to the empty list. -/
theorem C3_error_handling (store : Store) (s : CState) (id : String) :
    ((query store s id).2 = QueryRes.rejected ↔ id = "") ∧
    (id ≠ "" →
      (∃ items analyticsSent,
        query store s id = ({ s with querying := some false },
          QueryRes.resolved items analyticsSent)) ∧
      (store.projects id = none →
        query store s id = ({ s with querying := some false },
          QueryRes.resolved [] true)) ∧
      (∀ pdoc, store.projects id = some pdoc → pdoc.requests.getD [] = [] →
        _tryLegacy store s.fullQuery id = none →
        query store s id = ({ s with querying := some false },
          QueryRes.resolved [] true))) := by
  constructor
  · constructor
    · intro h
      by_contra hid
      obtain ⟨items, a, hq⟩ := query_resolves store s id hid
      rw [hq] at h
      cases h
    · intro h
      subst h
      simp [query]
  · intro hid
    refine ⟨query_resolves store s id hid, ?_, ?_⟩
    · intro hnone
      exact query_missing_project store s id hid hnone
    · intro pdoc hget hreqs htl
      exact query_fallback_none store s id hid pdoc hget hreqs htl

/-- Witness for C3 at a concrete store and id. -/
theorem C3_witness :
    ((query storeNoProject {} "p").2 = QueryRes.rejected ↔ "p" = "") ∧
    ("p" ≠ "" →
      (∃ items analyticsSent,
        query storeNoProject {} "p" = ({ ({} : CState) with querying := some false },
          QueryRes.resolved items analyticsSent)) ∧
      (storeNoProject.projects "p" = none →
        query storeNoProject {} "p" = ({ ({} : CState) with querying := some false },
          QueryRes.resolved [] true)) ∧
      (∀ pdoc, storeNoProject.projects "p" = some pdoc →
        pdoc.requests.getD [] = [] →
        _tryLegacy storeNoProject ({} : CState).fullQuery "p" = none →
        query storeNoProject {} "p" = ({ ({} : CState) with querying := some false },
          QueryRes.resolved [] true))) :=
  C3_error_handling storeNoProject {} "p"

/-- C10: calling `query` directly never modifies the published data state:
for every store, state and id, the state after `query` has unchanged
`data`, `projectId` and `fullQuery` — only the `querying` flag may differ —
and `data` is assigned from a query result only through the
`projectId`-assignment pathway `_autoQuery`, which stores exactly the items
the call resolved with. -/
theorem C10_query_frame (store : Store) (s : CState) (id : String) :
    (query store s id).1.data = s.data ∧
    (query store s id).1.projectId = s.projectId ∧
    (query store s id).1.fullQuery = s.fullQuery ∧
    (∀ s' items analyticsSent,
      query store s id = (s', QueryRes.resolved items analyticsSent) →
      _autoQuery store s (some id) = { s' with data := some items }) := by
  by_cases hid : id = ""
  · subst hid
    refine ⟨rfl, rfl, rfl, ?_⟩
    intro s' items a h
    simp [query] at h
  · obtain ⟨items, a, hq⟩ := query_resolves store s id hid
    refine ⟨by rw [hq], by rw [hq], by rw [hq], ?_⟩
    intro s' its a' h
    unfold _autoQuery
    dsimp only []
    rw [if_neg hid, h]

/-- Witness for C10 at a concrete store, state and id. -/
theorem C10_witness :
    (query storeP1 projectPState "P1").1.data = projectPState.data ∧
    (query storeP1 projectPState "P1").1.projectId = projectPState.projectId ∧
    (query storeP1 projectPState "P1").1.fullQuery = projectPState.fullQuery ∧
    (∀ s' items analyticsSent,
      query storeP1 projectPState "P1" = (s', QueryRes.resolved items analyticsSent) →
      _autoQuery storeP1 projectPState (some "P1") =
        { s' with data := some items }) :=
  C10_query_frame storeP1 projectPState "P1"

/-- C5 counterexample: project `p` is current and the list holds the entry
with identifier `"a"`; a committed Changed notification arrives for the
same logical record after its identifier changed to `"b"` (previousId
`"a"`).  The claim predicts the existing entry is found via previousId and
replaced, leaving `[renamedDoc]`; the handler instead looks up only the
record's own id, appends, and keeps the stale entry: the published list is
`[oldEntryDoc, renamedDoc]`, not `[renamedDoc]`. -/
theorem C5_counterexample :
    (_requestObjectChanged projectPState false renamedDoc).data =
      some [oldEntryDoc, renamedDoc] ∧
    some [oldEntryDoc, renamedDoc] ≠ some [renamedDoc] := by
  refine ⟨by decide, by decide⟩

/-- C5 amended: a Changed notification is ignored when provisional and
ignored — state unchanged in reference and content — when the record is not
associated with the current project (via `legacyProject` or the `projects`
list); when associated and the current list is absent or empty the list
becomes `[record]`; otherwise the handler finds an existing entry by the
record's OWN current identifier only (previousId is never consulted, so an
identifier change leaves the stale entry in place), replaces it if found
and appends the record if not, then re-runs the ordering step — without
re-applying the field reduction: the record is inserted whole — and
publishes the result. -/
theorem C5_changed_semantics (s : CState) (r : RequestDoc) (pid : String)
    (hpid : s.projectId = some pid) :
    (_requestObjectChanged s true r = s) ∧
    (pid ∉ changedProjects r → _requestObjectChanged s false r = s) ∧
    (pid ∈ changedProjects r →
      ((s.data.getD []).isEmpty = true →
        _requestObjectChanged s false r = { s with data := some [r] }) ∧
      (∀ items, s.data = some items → items.isEmpty = false →
        _requestObjectChanged s false r =
          { s with data := some (_prepareData (upsertByOwnId items r)) } ∧
        (_prepareData (upsertByOwnId items r)).Perm (upsertByOwnId items r) ∧
        (_prepareData (upsertByOwnId items r)).Chain' specOrderedLe ∧
        r ∈ _prepareData (upsertByOwnId items r))) := by
  have hrfl : _requestObjectChanged s false r =
      match s.projectId with
      | none => s
      | some pid =>
        if pid ∈ changedProjects r then
          if (s.data.getD []).isEmpty then { s with data := some [r] }
          else
            { s with data := some (_prepareData
                (upsertByOwnId (s.data.getD []) r)) }
        else s := rfl
  refine ⟨rfl, ?_, ?_⟩
  · intro hmem
    rw [hrfl, hpid]
    dsimp only []
    rw [if_neg hmem]
  · intro hmem
    constructor
    · intro hemp
      rw [hrfl, hpid]
      dsimp only []
      rw [if_pos hmem, if_pos hemp]
    · intro items hitems hne
      refine ⟨?_, _prepareData_perm _,
        (_prepareData_chain' _).imp
          (fun a b => (requestLe_iff_specOrderedLe a b).mp), ?_⟩
      · rw [hrfl, hpid]
        dsimp only []
        rw [if_pos hmem, hitems]
        simp only [Option.getD_some, hne, Bool.false_eq_true, if_false]
      · rw [(_prepareData_perm (upsertByOwnId items r)).mem_iff,
          upsertByOwnId_eq_rec]
        exact mem_upsertRec r items

/-- Witness for C5 (amended) at the concrete changed-identifier scenario. -/
theorem C5_witness :
    (_requestObjectChanged projectPState true renamedDoc = projectPState) ∧
    ("p" ∉ changedProjects renamedDoc →
      _requestObjectChanged projectPState false renamedDoc = projectPState) ∧
    ("p" ∈ changedProjects renamedDoc →
      ((projectPState.data.getD []).isEmpty = true →
        _requestObjectChanged projectPState false renamedDoc =
          { projectPState with data := some [renamedDoc] }) ∧
      (∀ items, projectPState.data = some items → items.isEmpty = false →
        _requestObjectChanged projectPState false renamedDoc =
          { projectPState with
            data := some (_prepareData (upsertByOwnId items renamedDoc)) } ∧
        (_prepareData (upsertByOwnId items renamedDoc)).Perm
          (upsertByOwnId items renamedDoc) ∧
        (_prepareData (upsertByOwnId items renamedDoc)).Chain' specOrderedLe ∧
        renamedDoc ∈ _prepareData (upsertByOwnId items renamedDoc))) :=
  C5_changed_semantics projectPState renamedDoc "p" rfl

/-! ## Deletion and live-sync helpers -/

theorem checkDeleted_data (s : CState) (ids : List String) :
    (_checkDeleted s ids).data = s.data ∨
    ∃ items, s.data = some items ∧
      (_checkDeleted s ids).data =
        some (items.filter (fun it => !(ids.contains it._id))) := by
  unfold _checkDeleted
  cases hd : s.data with
  | none => exact Or.inl hd
  | some items =>
    by_cases he : items.isEmpty = true
    · left
      simp only [he, if_true]
      exact hd
    · have he' : items.isEmpty = false := by simpa using he
      right
      refine ⟨items, rfl, ?_⟩
      simp only [he', Bool.false_eq_true, if_false]
      rw [removeMatching_eq]
      by_cases hany : (items.any fun it => ids.contains it._id) = true
      · simp only [hany, if_true]
      · have hf : (items.any fun it => ids.contains it._id) = false := by
          simpa using hany
        simp only [hf, Bool.false_eq_true, if_false]
        have hfe : items.filter (fun it => !(ids.contains it._id)) = items := by
          apply List.filter_eq_self.mpr
          intro x hx
          rw [List.any_eq_false] at hf
          simpa using hf x hx
        rw [hfe]
        exact hd

theorem checkDeleted_nodup (s : CState) (ids : List String)
    (h : dataIdsNodup s.data) : dataIdsNodup ((_checkDeleted s ids).data) := by
  rcases checkDeleted_data s ids with hd | ⟨items, hsome, hd⟩
  · rw [hd]
    exact h
  · rw [hd]
    show ((items.filter (fun it => !(ids.contains it._id))).map
      (fun r => r._id)).Nodup
    have hnd : (items.map (fun r => r._id)).Nodup := by
      rw [hsome] at h
      exact h
    exact List.Nodup.sublist
      (List.Sublist.map _ (List.filter_sublist items)) hnd

theorem upsert_nodup (items : List RequestDoc) (r : RequestDoc)
    (h : (items.map (fun d => d._id)).Nodup) :
    ((_prepareData (upsertByOwnId items r)).map (fun d => d._id)).Nodup := by
  have hperm := ((_prepareData_perm (upsertByOwnId items r)).map
    (fun d => d._id))
  apply hperm.nodup_iff.mpr
  rw [upsertByOwnId_eq_rec, upsertRec_map_id]
  by_cases hany : (items.any fun it => it._id == r._id) = true
  · rw [if_pos hany]
    exact h
  · rw [if_neg hany]
    have hnotmem : r._id ∉ items.map (fun d => d._id) := by
      intro hm
      obtain ⟨d, hd, hid⟩ := List.mem_map.mp hm
      exact hany (List.any_eq_true.mpr ⟨d, hd, by simp [hid]⟩)
    have hp : (items.map (fun d => d._id) ++ [r._id]).Perm
        (r._id :: items.map (fun d => d._id)) :=
      List.perm_append_singleton _ _
    exact hp.nodup_iff.mpr (List.nodup_cons.mpr ⟨hnotmem, h⟩)

theorem getD_map_id_nodup (s : CState) (h : dataIdsNodup s.data) :
    ((s.data.getD []).map (fun d => d._id)).Nodup := by
  cases hd : s.data with
  | none => simp
  | some l =>
    rw [hd] at h
    simpa using h

theorem query_items_nodup (store : Store) (s : CState) (id : String)
    (items : List RequestDoc) (a : Bool) (hdf : storeDupFree store)
    (h : (query store s id).2 = QueryRes.resolved items a) :
    (items.map (fun r => r._id)).Nodup := by
  rcases query_items_cases store s id items a h with h0 | ⟨pdoc, hget, hit⟩ | hit
  · rw [h0]
    exact List.nodup_nil
  · rw [hit]
    exact scoped_prepared_nodup store s.fullQuery _ (hdf.2 id pdoc hget)
  · rw [hit]
    exact scoped_prepared_nodup store s.fullQuery _ (hdf.1.filter _)

theorem autoQuery_nodup (store : Store) (s : CState) (pid : Option String)
    (hdf : storeDupFree store) (h : dataIdsNodup s.data) :
    dataIdsNodup ((_autoQuery store s pid).data) := by
  unfold _autoQuery
  cases pid with
  | none => exact h
  | some p =>
    dsimp only []
    by_cases hp : p = ""
    · rw [if_pos hp]
      exact h
    · rw [if_neg hp]
      obtain ⟨items, a, hq⟩ := query_resolves store s p hp
      rw [hq]
      show (items.map (fun r => r._id)).Nodup
      exact query_items_nodup store s p items a hdf (by rw [hq])

theorem requestObjectChanged_nodup (s : CState) (c : Bool) (r : RequestDoc)
    (h : dataIdsNodup s.data) :
    dataIdsNodup ((_requestObjectChanged s c r).data) := by
  unfold _requestObjectChanged
  split
  · exact h
  · split
    · exact h
    · split
      · split
        · show (([r]).map (fun d => d._id)).Nodup
          simp
        · show ((_prepareData (upsertByOwnId (s.data.getD []) r)).map
            (fun d => d._id)).Nodup
          exact upsert_nodup _ r (getD_map_id_nodup s h)
      · exact h

theorem requestObjectDeleted_nodup (s : CState) (c : Bool) (i : Option String)
    (h : dataIdsNodup s.data) :
    dataIdsNodup ((_requestObjectDeleted s c i).data) := by
  unfold _requestObjectDeleted
  split
  · exact h
  · split
    · exact h
    · split
      · exact h
      · exact checkDeleted_nodup s _ h

theorem requestObjectsDeleted_nodup (s : CState) (c : Bool)
    (ids : Option (List String)) (h : dataIdsNodup s.data) :
    dataIdsNodup ((_requestObjectsDeleted s c ids).data) := by
  unfold _requestObjectsDeleted
  split
  · exact h
  · split
    · exact h
    · split
      · exact h
      · exact checkDeleted_nodup s _ h

/-- C6: a Deleted notification is ignored when provisional or without an
id; every entry of the current list whose identifier is among the deleted
ids is removed (a filter: shape and order of the remaining entries
unchanged); the updated list is published exactly when at least one entry
was removed; it is a no-op without error when nothing matched or no list
exists.  A BulkDeleted notification with a non-empty id list applies the
same removal through the same `_checkDeleted` call (hence at most one
publish). -/
theorem C6_deleted_semantics (s : CState) :
    (∀ i, _requestObjectDeleted s true i = s) ∧
    (∀ ids, _requestObjectsDeleted s true ids = s) ∧
    (_requestObjectDeleted s false none = s) ∧
    (_requestObjectsDeleted s false none = s) ∧
    (_requestObjectsDeleted s false (some []) = s) ∧
    (s.data = none → ∀ ids, _checkDeleted s ids = s) ∧
    (∀ items ids, s.data = some items →
      ((items.any fun it => ids.contains it._id) = true →
        _checkDeleted s ids =
          { s with
            data := some (items.filter fun it => !(ids.contains it._id)) }) ∧
      ((items.any fun it => ids.contains it._id) = false →
        _checkDeleted s ids = s)) ∧
    (∀ id, id ≠ "" →
      _requestObjectDeleted s false (some id) = _checkDeleted s [id]) ∧
    (∀ ids, ids ≠ [] →
      _requestObjectsDeleted s false (some ids) = _checkDeleted s ids) := by
  refine ⟨fun i => rfl, fun ids => rfl, rfl, rfl, rfl, ?_, ?_, ?_, ?_⟩
  · intro hnone ids
    unfold _checkDeleted
    rw [hnone]
  · intro items ids hdata
    constructor
    · intro hany
      have hne : items.isEmpty = false := by
        cases items with
        | nil => simp at hany
        | cons a t => rfl
      unfold _checkDeleted
      rw [hdata]
      dsimp only []
      simp only [hne, Bool.false_eq_true, if_false]
      rw [removeMatching_eq]
      dsimp only []
      simp only [hany, if_true]
    · intro hany
      by_cases he : items.isEmpty = true
      · unfold _checkDeleted
        rw [hdata]
        dsimp only []
        rw [if_pos he]
      · have he' : items.isEmpty = false := by simpa using he
        unfold _checkDeleted
        rw [hdata]
        dsimp only []
        simp only [he', Bool.false_eq_true, if_false]
        rw [removeMatching_eq]
        dsimp only []
        simp only [hany, Bool.false_eq_true, if_false]
  · intro id hid
    have hrfl : _requestObjectDeleted s false (some id) =
        if id = "" then s else _checkDeleted s [id] := rfl
    rw [hrfl, if_neg hid]
  · intro ids hne
    have hrfl : _requestObjectsDeleted s false (some ids) =
        if ids.isEmpty = true then s else _checkDeleted s ids := rfl
    have h2 : ids.isEmpty = false := by
      cases ids with
      | nil => exact absurd rfl hne
      | cons a t => rfl
    rw [hrfl]
    simp only [h2, Bool.false_eq_true, if_false]

/-- Witness for C6: deleting id `"a"` from the singleton list removes it
and republishes the filtered list. -/
theorem C6_witness :
    _checkDeleted projectPState ["a"] =
      { projectPState with
        data := some ([oldEntryDoc].filter fun it =>
          !((["a"] : List String).contains it._id)) } :=
  ((C6_deleted_semantics projectPState).2.2.2.2.2.2.1 [oldEntryDoc] ["a"]
    rfl).1 (by decide)

theorem storeP1_dupFree : storeDupFree storeP1 := by
  constructor
  · decide
  · intro id pdoc hp
    simp only [storeP1] at hp
    by_cases hid : id = "P1"
    · rw [if_pos hid] at hp
      cases hp
      decide
    · rw [if_neg hid] at hp
      cases hp

/-- C7: assuming the store returns duplicate-free results (saved ids are
unique and no project document lists an id twice), the data list never
acquires two entries with the same identifier: every `query` result is
duplicate-free, and every state mutation — the `_autoQuery` publication and
the Changed/Deleted/BulkDeleted handlers — preserves duplicate-freedom of
the published list. -/
theorem C7_unique_ids :
    (∀ store s id items analyticsSent, storeDupFree store →
      (query store s id).2 = QueryRes.resolved items analyticsSent →
      (items.map (fun r => r._id)).Nodup) ∧
    (∀ store s pid, storeDupFree store → dataIdsNodup s.data →
      dataIdsNodup ((_autoQuery store s pid).data)) ∧
    (∀ s c r, dataIdsNodup s.data →
      dataIdsNodup ((_requestObjectChanged s c r).data)) ∧
    (∀ s c i, dataIdsNodup s.data →
      dataIdsNodup ((_requestObjectDeleted s c i).data)) ∧
    (∀ s c ids, dataIdsNodup s.data →
      dataIdsNodup ((_requestObjectsDeleted s c ids).data)) := by
  refine ⟨?_, ?_, ?_, ?_, ?_⟩
  · intro store s id items a hdf h
    exact query_items_nodup store s id items a hdf h
  · intro store s pid hdf h
    exact autoQuery_nodup store s pid hdf h
  · intro s c r h
    exact requestObjectChanged_nodup s c r h
  · intro s c i h
    exact requestObjectDeleted_nodup s c i h
  · intro s c ids h
    exact requestObjectsDeleted_nodup s c ids h

/-- Witness for C7: the concrete query over `storeP1` yields a
duplicate-free id list. -/
theorem C7_witness :
    (([scopeItem alphaDoc, scopeItem betaDoc].map (fun r => r._id)).Nodup) :=
  C7_unique_ids.1 storeP1 {} "P1" [scopeItem alphaDoc, scopeItem betaDoc]
    false storeP1_dupFree (by decide)

/-- C9 counterexample: the list holds exactly the entry with identifier
`"a"`; a committed Deleted("a") notification removes it and publishes the
EMPTY list — a deletion notification does clear `data` to empty,
contradicting the claim that only a failed lookup does. -/
theorem C9_counterexample :
    projectPState.data = some [oldEntryDoc] ∧
    (_requestObjectDeleted projectPState false (some "a")).data =
      some ([] : List RequestDoc) := by
  refine ⟨rfl, by decide⟩

/-- C9 amended: a deletion notification can also clear `data` to empty,
and it does so exactly when it removes every remaining entry: whenever
`_checkDeleted` turns a list that was not already empty into the empty
list, the previous list was non-empty and every one of its entries'
identifiers was among the deleted ids. -/
theorem C9_empty_only_when_all_removed (s : CState) (ids : List String)
    (h : (_checkDeleted s ids).data = some []) (h2 : s.data ≠ some []) :
    ∃ items, s.data = some items ∧ items ≠ [] ∧
      ∀ it ∈ items, it._id ∈ ids := by
  rcases checkDeleted_data s ids with hd | ⟨items, hsome, hd⟩
  · rw [hd] at h
    exact absurd h h2
  · rw [hd] at h
    have hf : items.filter (fun it => !(ids.contains it._id)) = [] :=
      Option.some.inj h
    refine ⟨items, hsome, ?_, ?_⟩
    · intro he
      exact h2 (by rw [hsome, he])
    · intro it hit
      rw [List.filter_eq_nil_iff] at hf
      simpa using hf it hit

/-- Witness for C9 (amended): deleting `"a"` empties the singleton list,
and indeed its only entry's identifier is among the deleted ids. -/
theorem C9_witness :
    ∃ items, projectPState.data = some items ∧ items ≠ [] ∧
      ∀ it ∈ items, it._id ∈ ["a"] :=
  C9_empty_only_when_all_removed projectPState ["a"] (by decide) (by decide)

end LegacyRelatedRequests
